import Mathlib

/-!
Shallow embedding of `parse_articles.py` (ESL-Lessons repository).

Strings are modelled as `List Char`.  Python's `str.strip`, `str.lower`,
`str.find`, `str.split('\n')`, `'\n'.join`, `str.replace` and the regular
expressions used by the script are modelled by executable Lean functions
defined below, each named after (or next to) the Python function it embeds.
Whitespace is the ASCII whitespace set recognised by Python's `str.strip`
and the regex class `\s` (space, tab, newline, vertical tab, form feed,
carriage return); character classes such as `[^a-zA-Z0-9\s-]` are ASCII,
matching the inputs the script is designed for.
-/

/-- ASCII whitespace, as recognised by Python `str.strip` / regex `\s`. -/
def isPySpace (c : Char) : Bool :=
  c.toNat = 32 || c.toNat = 9 || c.toNat = 10 || c.toNat = 11 ||
  c.toNat = 12 || c.toNat = 13

/-- The regex class `[a-zA-Z]`. -/
def isAsciiLetter (c : Char) : Bool :=
  (65 ≤ c.toNat && c.toNat ≤ 90) || (97 ≤ c.toNat && c.toNat ≤ 122)

/-- The regex class `[0-9]`. -/
def isAsciiDigit (c : Char) : Bool :=
  48 ≤ c.toNat && c.toNat ≤ 57

/-- Characters kept by `re.sub(r'[^a-zA-Z0-9\s-]', '', ·)` in `parse_filename`. -/
def isAllowed (c : Char) : Bool :=
  isAsciiLetter c || isAsciiDigit c || isPySpace c || c.toNat = 45

/-- Python `str.lower` (ASCII). -/
def lowerL (s : List Char) : List Char :=
  s.map Char.toLower

/-- Python `str.lstrip`. -/
def trimLeft (s : List Char) : List Char :=
  s.dropWhile isPySpace

/-- Python `str.rstrip`. -/
def trimRight (s : List Char) : List Char :=
  ((s.reverse).dropWhile isPySpace).reverse

/-- Python `str.strip`. -/
def trim (s : List Char) : List Char :=
  trimRight (trimLeft s)

/-- Python `str.split('\n')`: always returns a nonempty list of lines. -/
def splitNl : List Char → List (List Char)
  | [] => [[]]
  | c :: rest =>
    if c = '\n' then [] :: splitNl rest
    else
      match splitNl rest with
      | [] => [[c]]
      | l :: ls => (c :: l) :: ls

/-- Python `'\n'.join`. -/
def joinNl : List (List Char) → List Char
  | [] => []
  | [l] => l
  | l :: ls => l ++ '\n' :: joinNl ls

/-- Python `str.find(pat)`: index of the first occurrence of `pat`,
`none` when `pat` does not occur (`find` returning `-1`). -/
def findSub (pat : List Char) : List Char → Option Nat
  | [] => if pat = [] then some 0 else none
  | c :: rest =>
    if pat.isPrefixOf (c :: rest) then some 0
    else (findSub pat rest).map (· + 1)

/-- Python `pat in s` (used as `marker.lower() in line.lower()`). -/
def containsSub (pat s : List Char) : Bool :=
  (findSub pat s).isSome

/-- The `"Homework:"` literal of `parse_level_content`. -/
def hwMarker : List Char := "Homework:".toList

/-- `writing_prompt_markers` of `parse_level_6_content` (source line 58). -/
def writing_prompt_markers : List (List Char) :=
  ["Free Writing".toList, "Academic Writing".toList,
   "Writing Practice".toList, "writing practice".toList]

/-- `instruction_markers` of `extract_instruction_and_questions` (source line 90). -/
def instruction_markers : List (List Char) :=
  ["Write a full sentence".toList, "Write a full-sentence".toList,
   "Answer each question".toList, "Write full sentences".toList,
   "In your Vocab Notebook".toList]

/-- The inner loop of `extract_instruction_and_questions` (source lines
100-105): first line containing `marker` case-insensitively; on a hit at
line `i`, `(line_i.strip(), '\n'.join(lines[i+1:]).strip())`. -/
def lineScan (marker : List Char) : List (List Char) → Option (List Char × List Char)
  | [] => none
  | line :: rest =>
    if containsSub (lowerL marker) (lowerL line) then
      some (trim line, trim (joinNl rest))
    else lineScan marker rest

/-- The marker loop of `extract_instruction_and_questions` (source lines
94-108): for each marker, test `homework_content.lower().find(marker.lower())`
and only then scan the lines; fall through keeps `('', homework_content)`. -/
def extractIQGo (markers : List (List Char)) (content : List Char) :
    List Char × List Char :=
  match markers with
  | [] => ([], content)
  | m :: rest =>
    match findSub (lowerL m) (lowerL content) with
    | some _ =>
      match lineScan m (splitNl content) with
      | some iq => iq
      | none => extractIQGo rest content
    | none => extractIQGo rest content

/-- `extract_instruction_and_questions` (source lines 88-110). -/
def extract_instruction_and_questions (homework_content : List Char) :
    List Char × List Char :=
  extractIQGo instruction_markers homework_content

/-- The marker loop of `parse_level_6_content` (source lines 61-65): the
first marker of `writing_prompt_markers` found case-insensitively anywhere
in the block wins; its first occurrence index is returned. -/
def findWritingIndex (markers : List (List Char)) (after_homework : List Char) :
    Option Nat :=
  match markers with
  | [] => none
  | m :: rest =>
    match findSub (lowerL m) (lowerL after_homework) with
    | some i => some i
    | none => findWritingIndex rest after_homework

/-- `parse_level_6_content` (source lines 55-80). -/
def parse_level_6_content (article_text after_homework : List Char) :
    List Char × List Char × List Char × List Char :=
  match findWritingIndex writing_prompt_markers after_homework with
  | some writing_index =>
    let before_writing := trim (after_homework.take writing_index)
    let writing_prompt := trim (after_homework.drop writing_index)
    let iq := extract_instruction_and_questions before_writing
    (article_text, iq.1, iq.2, writing_prompt)
  | none =>
    let iq := extract_instruction_and_questions after_homework
    (article_text, iq.1, iq.2, [])

/-- `parse_level_1_and_3_content` (source lines 82-86). -/
def parse_level_1_and_3_content (article_text after_homework : List Char) :
    List Char × List Char × List Char × List Char :=
  let iq := extract_instruction_and_questions after_homework
  (article_text, iq.1, iq.2, [])

/-- `parse_level_content` (source lines 32-53). -/
def parse_level_content (full_text : List Char) (level : Nat) :
    List Char × List Char × List Char × List Char :=
  if full_text = [] then ([], [], [], [])
  else
    match findSub hwMarker full_text with
    | none => (trim full_text, [], [], [])
    | some homework_index =>
      let article_text := trim (full_text.take homework_index)
      let after_homework := trim (full_text.drop (homework_index + hwMarker.length))
      if level = 6 then parse_level_6_content article_text after_homework
      else parse_level_1_and_3_content article_text after_homework

/-- `extract_text_from_docx` (source lines 9-20), over the list of paragraph
texts of the document: keep each stripped paragraph that is non-blank, and
join with newlines. -/
def extract_text_from_docx (paras : List (List Char)) : List Char :=
  joinNl (((paras.map trim).filter (fun p => !p.isEmpty)))

/-- The headline taken at source line 165:
`text.split('\n')[0].strip() if text else ""`. -/
def headlineOf (text : List Char) : List Char :=
  if text = [] then [] else trim (splitNl text).headI

/-- Python `filename.replace('.docx', '')` (source line 25): remove every
occurrence of `.docx`, scanning left to right without rescanning. -/
def removeDocx : List Char → List Char
  | '.' :: 'd' :: 'o' :: 'c' :: 'x' :: rest => removeDocx rest
  | c :: rest => c :: removeDocx rest
  | [] => []

/-- `re.sub(r'^Lvl \d+\s*', '', ·)` (source line 25): drop a leading
`"Lvl "`, one or more digits, and any following whitespace; otherwise the
string is unchanged. -/
def stripLvlPrefixFn (s : List Char) : List Char :=
  match s with
  | 'L' :: 'v' :: 'l' :: ' ' :: rest =>
    let ds := rest.takeWhile isAsciiDigit
    if ds = [] then s
    else (rest.drop ds.length).dropWhile isPySpace
  | _ => s

/-- Whether `\s*_\s*Breaking News English.*$` matches starting at this
position (source line 26): optional whitespace, an underscore, optional
whitespace, the literal, then the rest of the string must contain no
newline except possibly a final one (Python `.` excludes `\n` and `$`
matches at the end or just before a final newline).  Returns whether a
final newline survives the substitution. -/
def attrTail (t : List Char) : Option Bool :=
  match (t.dropWhile isPySpace) with
  | '_' :: t2 =>
    let t3 := t2.dropWhile isPySpace
    if ("Breaking News English".toList).isPrefixOf t3 then
      let rest := t3.drop ("Breaking News English".toList).length
      if '\n' ∈ rest then
        if rest.getLast? = some '\n' ∧ '\n' ∉ rest.dropLast then some true
        else none
      else some false
    else none
  | _ => none

/-- Leftmost start of a `\s*_\s*Breaking News English.*$` match. -/
def attrFind : List Char → Option (Nat × Bool)
  | [] => none
  | c :: rest =>
    match attrTail (c :: rest) with
    | some b => some (0, b)
    | none => (attrFind rest).map (fun ib => (ib.1 + 1, ib.2))

/-- `re.sub(r'\s*_\s*Breaking News English.*$', '', ·)` (source line 26). -/
def stripAttr (s : List Char) : List Char :=
  match attrFind s with
  | none => s
  | some (i, keepNl) => s.take i ++ (if keepNl then ['\n'] else [])

/-- Scanner for `re.sub(r'\s+', '-', ·)`: the flag records whether the scan
is inside a whitespace run whose hyphen has already been emitted. -/
def collapseWsGo : Bool → List Char → List Char
  | _, [] => []
  | inRun, c :: rest =>
    if isPySpace c then
      if inRun then collapseWsGo true rest
      else '-' :: collapseWsGo true rest
    else c :: collapseWsGo false rest

/-- `re.sub(r'\s+', '-', ·)` (source line 29): replace each maximal run of
whitespace by a single hyphen. -/
def collapseWs (s : List Char) : List Char :=
  collapseWsGo false s

/-- The slug construction of `parse_filename` (source lines 28-29):
`re.sub(r'[^a-zA-Z0-9\s-]', '', clean_name).lower().strip()` followed by
`re.sub(r'\s+', '-', ·)`. -/
def slugify (s : List Char) : List Char :=
  collapseWs (trim (lowerL (s.filter isAllowed)))

/-- `parse_filename` (source lines 22-30). -/
def parse_filename (filename : List Char) : List Char :=
  slugify (stripAttr (stripLvlPrefixFn (removeDocx filename)))

/-- Decimal value of a digit list (most significant first), as read back
from an id; used only to reason about `formatId`. -/
def charsToNat (s : List Char) : Nat :=
  s.foldl (fun a c => 10 * a + (c.toNat - 48)) 0

/-- The decimal digit character for `d < 10`. -/
def digitChar (d : Nat) : Char := Char.ofNat (48 + d)

/-- Decimal digits of `n`, most significant first. -/
def natDigits (n : Nat) : List Char :=
  if n < 10 then [digitChar n]
  else natDigits (n / 10) ++ [digitChar (n % 10)]
termination_by n
decreasing_by
  exact Nat.div_lt_self (by omega) (by omega)

/-- Python `f'{n:03d}'`: decimal of `n` left-padded with zeros to width 3. -/
def pad3 (n : Nat) : List Char :=
  List.replicate (3 - (natDigits n).length) '0' ++ natDigits n

/-- `f'rec{article_id:03d}'` (source line 187). -/
def formatId (n : Nat) : List Char :=
  "rec".toList ++ pad3 n

/-- The per-level dictionary entry stored at source lines 164-171. -/
structure LevelEntry where
  headline : List Char
  article_text : List Char
  instruction : List Char
  questions : List Char
  writing_prompt : List Char
  filename : List Char
deriving DecidableEq, Repr

/-- The `articles` accumulator (source line 139): an insertion-ordered
mapping slug -> (insertion-ordered mapping level -> entry), modelled as
association lists in insertion order, as Python dicts are. -/
def Articles : Type := List (List Char × List (Nat × LevelEntry))

/-- Python dict update on the inner level map: overwrite in place if the
key is present, else append. -/
def dictSet (m : List (Nat × LevelEntry)) (k : Nat) (v : LevelEntry) :
    List (Nat × LevelEntry) :=
  if m.any (fun p => p.1 = k) then
    m.map (fun p => if p.1 = k then (k, v) else p)
  else m ++ [(k, v)]

/-- Python `dict.get` on the inner level map. -/
def getLevel (m : List (Nat × LevelEntry)) (k : Nat) : Option LevelEntry :=
  match m with
  | [] => none
  | p :: rest => if p.1 = k then some p.2 else getLevel rest k

/-- Lookup of a slug's level map in the accumulator. -/
def getSlug (st : Articles) (s : List Char) : Option (List (Nat × LevelEntry)) :=
  match st with
  | [] => none
  | p :: rest => if p.1 = s then some p.2 else getSlug rest s

/-- `articles[slug][f'level_{level}'] = entry` (source line 164): create the
slug's entry at first sight (in encounter order), then write the level. -/
def addParse (st : Articles) (s : List Char) (lvl : Nat) (e : LevelEntry) :
    Articles :=
  match st with
  | [] => [(s, [(lvl, e)])]
  | (s', m) :: rest =>
    if s' = s then (s', dictSet m lvl e) :: rest
    else (s', m) :: addParse rest s lvl e

/-- `re.search(r'^Lvl (\d+)', filename)` with `int(group(1))`
(source lines 146-152). -/
def parseLevelToken (name : List Char) : Option Nat :=
  match name with
  | 'L' :: 'v' :: 'l' :: ' ' :: rest =>
    let ds := rest.takeWhile isAsciiDigit
    if ds = [] then none else some (charsToNat ds)
  | _ => none

/-- One file of the input batch: its filename and the text the document
extractor produced for it. -/
def InputFile : Type := List Char × List Char

/-- The skip logic of the scanning loop (source lines 141-158): require the
`.docx` extension, a leading level token, and nonempty extracted text;
produce the slev/slug used for storing. -/
def fileKey (f : InputFile) : Option (List Char × Nat) :=
  if (".docx".toList).isSuffixOf f.1 then
    match parseLevelToken f.1 with
    | some lvl => if f.2 = [] then none else some (parse_filename f.1, lvl)
    | none => none
  else none

/-- The per-file stored entry (source lines 161-171). -/
def mkEntry (f : InputFile) (lvl : Nat) : LevelEntry :=
  let p := parse_level_content f.2 lvl
  { headline := headlineOf f.2
    article_text := p.1
    instruction := p.2.1
    questions := p.2.2.1
    writing_prompt := p.2.2.2
    filename := f.1 }

/-- One iteration of the scanning loop of `main` (source lines 141-173). -/
def procStep (st : Articles) (f : InputFile) : Articles :=
  match fileKey f with
  | none => st
  | some (slug, lvl) => addParse st slug lvl (mkEntry f lvl)

/-- The scanning loop of `main` (source lines 141-173). -/
def processFiles (files : List InputFile) : Articles :=
  files.foldl procStep []

/-- The slugs of the files that are actually processed, in file order. -/
def processedSlugs (files : List InputFile) : List (List Char) :=
  files.filterMap (fun f => (fileKey f).map (fun sl => sl.1))

/-- The output record of source lines 186-211 (fixed schema). -/
structure Record where
  id : List Char
  headline : List Char
  slug : List Char
  image_url : List Char
  level0_text : List Char
  level0_questions : List Char
  level1_text : List Char
  level1_questions : List Char
  level1_instruction : List Char
  level2_text : List Char
  level2_questions : List Char
  level3_text : List Char
  level3_questions : List Char
  level3_instruction : List Char
  level4_text : List Char
  level4_questions : List Char
  level5_text : List Char
  level5_questions : List Char
  level6_text : List Char
  level6_questions : List Char
  level6_instruction : List Char
  level6_writing_prompt : List Char
deriving DecidableEq, Repr

/-- `article_data` (source lines 181-211) for one slug, with the counter
value `n` (`article_id`). -/
def buildRecord (n : Nat) (slug : List Char) (m : List (Nat × LevelEntry)) :
    Record :=
  let level1 := getLevel m 1
  let level3 := getLevel m 3
  let level6 := getLevel m 6
  { id := formatId n
    headline :=
      match level3 with
      | some e3 => e3.headline
      | none =>
        match level1 with
        | some e1 => e1.headline
        | none =>
          match level6 with
          | some e6 => e6.headline
          | none => []
    slug := slug
    image_url := []
    level0_text := []
    level0_questions := []
    level1_text := (level1.map LevelEntry.article_text).getD []
    level1_questions := (level1.map LevelEntry.questions).getD []
    level1_instruction := (level1.map LevelEntry.instruction).getD []
    level2_text := []
    level2_questions := []
    level3_text := (level3.map LevelEntry.article_text).getD []
    level3_questions := (level3.map LevelEntry.questions).getD []
    level3_instruction := (level3.map LevelEntry.instruction).getD []
    level4_text := []
    level4_questions := []
    level5_text := []
    level5_questions := []
    level6_text := (level6.map LevelEntry.article_text).getD []
    level6_questions := (level6.map LevelEntry.questions).getD []
    level6_instruction := (level6.map LevelEntry.instruction).getD []
    level6_writing_prompt := (level6.map LevelEntry.writing_prompt).getD [] }

/-- The output loop of `main` (source lines 176-214): emit one record per
accumulated slug, in insertion order, with `article_id` counting from `n`. -/
def finalizeFrom (n : Nat) : Articles → List Record
  | [] => []
  | (s, m) :: rest => buildRecord n s m :: finalizeFrom (n + 1) rest

/-- The full pipeline of `main` on a batch of extracted files: scan, then
emit with `article_id` starting at 1. -/
def runMain (files : List InputFile) : List Record :=
  finalizeFrom 1 (processFiles files)

/-- First-encounter order of a list of slugs, skipping those already seen. -/
def firstOccurGo (seen : List (List Char)) : List (List Char) → List (List Char)
  | [] => []
  | x :: xs => if x ∈ seen then firstOccurGo seen xs else x :: firstOccurGo (x :: seen) xs

/-- Distinct slugs in order of first encounter. -/
def firstOccur (l : List (List Char)) : List (List Char) :=
  firstOccurGo [] l

/-- Lookup of one level's parse for a slug in the accumulator. -/
def getLevelOf (st : Articles) (s : List Char) (lvl : Nat) : Option LevelEntry :=
  match getSlug st s with
  | none => none
  | some m => getLevel m lvl

/-- The first non-blank line of a text, trimmed; empty if none exists
(the spec's description of headline extraction). -/
def firstNonBlankLineTrimmed (t : List Char) : List Char :=
  match (splitNl t).find? (fun l => !(trim l).isEmpty) with
  | some l => trim l
  | none => []

/-- The spec's wording of the level-6 writing-prompt split (spec §4.2 and
claim C1): identical to `parse_level_6_content` except that
`textBeforeWriting` is the *untrimmed* `homeworkBlock[0:p]`. -/
def parse_level_6_content_claimed (article_text after_homework : List Char) :
    List Char × List Char × List Char × List Char :=
  match findWritingIndex writing_prompt_markers after_homework with
  | some writing_index =>
    let before_writing := after_homework.take writing_index
    let writing_prompt := trim (after_homework.drop writing_index)
    let iq := extract_instruction_and_questions before_writing
    (article_text, iq.1, iq.2, writing_prompt)
  | none =>
    let iq := extract_instruction_and_questions after_homework
    (article_text, iq.1, iq.2, [])

/-- The spec's wording of instruction/questions extraction (claim C3): the
first marker in priority order for which some *line* matches wins; no
whole-block pre-test. -/
def extractIQClaimedGo (markers : List (List Char)) (content : List Char) :
    List Char × List Char :=
  match markers with
  | [] => ([], content)
  | m :: rest =>
    match lineScan m (splitNl content) with
    | some iq => iq
    | none => extractIQClaimedGo rest content

/-- Claim C3's description of `extract_instruction_and_questions`. -/
def extract_instruction_and_questions_claimed (content : List Char) :
    List Char × List Char :=
  extractIQClaimedGo instruction_markers content

/-- Claim C9's wording of extension stripping: remove only a *trailing*
`.docx`. -/
def stripExtTrailing (s : List Char) : List Char :=
  if (".docx".toList).isSuffixOf s then s.take (s.length - 5) else s

/-- Claim C9's wording of the attribution match: same shape as `attrTail`
but case-insensitive on the literal. -/
def attrTailCI (t : List Char) : Option Bool :=
  match (t.dropWhile isPySpace) with
  | '_' :: t2 =>
    let t3 := t2.dropWhile isPySpace
    if (lowerL ("Breaking News English".toList)).isPrefixOf (lowerL t3) then
      let rest := t3.drop ("Breaking News English".toList).length
      if '\n' ∈ rest then
        if rest.getLast? = some '\n' ∧ '\n' ∉ rest.dropLast then some true
        else none
      else some false
    else none
  | _ => none

/-- Leftmost case-insensitive attribution match. -/
def attrFindCI : List Char → Option (Nat × Bool)
  | [] => none
  | c :: rest =>
    match attrTailCI (c :: rest) with
    | some b => some (0, b)
    | none => (attrFindCI rest).map (fun ib => (ib.1 + 1, ib.2))

/-- Case-insensitive attribution stripping, per claim C9's wording. -/
def stripAttrCI (s : List Char) : List Char :=
  match attrFindCI s with
  | none => s
  | some (i, keepNl) => s.take i ++ (if keepNl then ['\n'] else [])

/-- `parse_filename` as claim C9 words it: trailing-extension strip and a
case-insensitive attribution match. -/
def parse_filename_claimed (filename : List Char) : List Char :=
  slugify (stripAttrCI (stripLvlPrefixFn (stripExtTrailing filename)))

/-- Maximal whitespace-separated words of a string. -/
def wsWords : List Char → List (List Char)
  | [] => []
  | c :: rest =>
    if isPySpace c then wsWords rest
    else (c :: rest.takeWhile (fun d => !isPySpace d)) ::
      wsWords (rest.dropWhile (fun d => !isPySpace d))
termination_by s => s.length
decreasing_by
  · simp
  · simpa using
      Nat.lt_succ_of_le ((List.dropWhile_sublist (fun d => !isPySpace d)).length_le)

/-- Join words with single hyphens. -/
def joinHyphen : List (List Char) → List Char
  | [] => []
  | [w] => w
  | w :: ws => w ++ '-' :: joinHyphen ws

/-- The spec's wording of slugification: remove every character that is not
a letter, digit, space or hyphen, lowercase, and join the whitespace-
separated words of the result with single hyphens. -/
def slugify_spec (s : List Char) : List Char :=
  joinHyphen (wsWords (lowerL (s.filter isAllowed)))

/-- `parse_filename` as amended by claim C9's correction: every `.docx`
occurrence is removed in one left-to-right pass, and the attribution suffix
is matched case-sensitively. -/
def parse_filename_amended (filename : List Char) : List Char :=
  slugify_spec (stripAttr (stripLvlPrefixFn (removeDocx filename)))

/-! ### Character-level lemmas -/

theorem char_toNat_ofNat {n : Nat} (h : n.isValidChar) :
    (Char.ofNat n).toNat = n := by
  simp only [Char.ofNat, dif_pos h, Char.ofNatAux, Char.toNat, UInt32.toNat]
  rfl

theorem char_toNat_inj {c d : Char} (h : c.toNat = d.toNat) : c = d := by
  have hc := Char.ofNat_toNat c
  have hd := Char.ofNat_toNat d
  rw [← hc, ← hd, h]

theorem toLower_toNat (c : Char) :
    (Char.toLower c).toNat =
      if 65 ≤ c.toNat ∧ c.toNat ≤ 90 then c.toNat + 32 else c.toNat := by
  unfold Char.toLower
  by_cases h : c.toNat ≥ 65 ∧ c.toNat ≤ 90
  · rw [if_pos h, if_pos ⟨h.1, h.2⟩]
    have hv : (c.toNat + 32).isValidChar := by
      left
      omega
    exact char_toNat_ofNat hv
  · rw [if_neg h, if_neg h]

theorem toLower_eq_self (c : Char) (h : ¬(65 ≤ c.toNat ∧ c.toNat ≤ 90)) :
    Char.toLower c = c := by
  unfold Char.toLower
  rw [if_neg h]

theorem toLower_toLower (c : Char) :
    Char.toLower (Char.toLower c) = Char.toLower c := by
  apply toLower_eq_self
  rw [toLower_toNat]
  by_cases h : 65 ≤ c.toNat ∧ c.toNat ≤ 90
  · rw [if_pos h]; omega
  · rw [if_neg h]; omega

theorem toLower_eq_newline_iff (c : Char) :
    Char.toLower c = '\n' ↔ c = '\n' := by
  constructor
  · intro h
    have h10 : (Char.toLower c).toNat = 10 := by rw [h]; rfl
    rw [toLower_toNat] at h10
    apply char_toNat_inj
    by_cases hu : 65 ≤ c.toNat ∧ c.toNat ≤ 90
    · rw [if_pos hu] at h10; omega
    · rw [if_neg hu] at h10; rw [h10]; rfl
  · intro h; rw [h]; rfl

/-! ### `findSub` and substring occurrence -/

theorem findSub_some_prefix {pat s : List Char} {i : Nat}
    (h : findSub pat s = some i) : pat <+: s.drop i := by
  induction s generalizing i with
  | nil =>
    simp only [findSub] at h
    by_cases hp : pat = ([] : List Char)
    · rw [if_pos hp] at h
      cases h
      simp [hp]
    · rw [if_neg hp] at h
      cases h
  | cons c rest ih =>
    simp only [findSub] at h
    by_cases hp : pat.isPrefixOf (c :: rest)
    · rw [if_pos hp] at h
      cases h
      simpa using hp
    · rw [if_neg hp] at h
      cases hfind : findSub pat rest with
      | none => rw [hfind] at h; cases h
      | some i' =>
        rw [hfind] at h
        simp only [Option.map_some'] at h
        cases h
        simpa using ih hfind

theorem findSub_min {pat s : List Char} {i : Nat}
    (h : findSub pat s = some i) : ∀ j, j < i → ¬ pat <+: s.drop j := by
  induction s generalizing i with
  | nil =>
    simp only [findSub] at h
    by_cases hp : pat = ([] : List Char)
    · rw [if_pos hp] at h
      cases h
      omega
    · rw [if_neg hp] at h
      cases h
  | cons c rest ih =>
    simp only [findSub] at h
    by_cases hp : pat.isPrefixOf (c :: rest)
    · rw [if_pos hp] at h
      cases h
      omega
    · rw [if_neg hp] at h
      cases hfind : findSub pat rest with
      | none => rw [hfind] at h; cases h
      | some i' =>
        rw [hfind] at h
        simp only [Option.map_some'] at h
        cases h
        intro j hj
        cases j with
        | zero =>
          intro hpre
          exact hp (by simpa using hpre)
        | succ j' =>
          simpa using ih hfind j' (by omega)

theorem isInfix_iff_exists_drop {pat s : List Char} :
    pat <:+: s ↔ ∃ j, pat <+: s.drop j := by
  constructor
  · rintro ⟨u, v, rfl⟩
    exact ⟨u.length, by simp [List.drop_left, List.prefix_append]⟩
  · rintro ⟨j, hj⟩
    exact hj.isInfix.trans (s.drop_suffix j).isInfix

theorem findSub_none {pat s : List Char} (hf : findSub pat s = none) :
    ∀ j, ¬ pat <+: s.drop j := by
  induction s with
  | nil =>
    simp only [findSub] at hf
    by_cases hp : pat = ([] : List Char)
    · rw [if_pos hp] at hf; cases hf
    · intro j hj
      rw [List.drop_nil] at hj
      exact hp (List.prefix_nil.mp hj)
  | cons c rest ih =>
    simp only [findSub] at hf
    by_cases hp : pat.isPrefixOf (c :: rest)
    · rw [if_pos hp] at hf; cases hf
    · rw [if_neg hp] at hf
      cases hfr : findSub pat rest with
      | some i' => rw [hfr] at hf; simp at hf
      | none =>
        intro j
        cases j with
        | zero =>
          intro hj
          exact hp (by simpa using hj)
        | succ j' =>
          simpa using ih hfr j'

theorem findSub_isSome_iff {pat s : List Char} :
    (findSub pat s).isSome = true ↔ pat <:+: s := by
  constructor
  · intro h
    cases hf : findSub pat s with
    | none => rw [hf] at h; cases h
    | some i =>
      exact isInfix_iff_exists_drop.mpr ⟨i, findSub_some_prefix hf⟩
  · intro h
    obtain ⟨j, hj⟩ := isInfix_iff_exists_drop.mp h
    cases hf : findSub pat s with
    | some i => rfl
    | none => exact absurd hj (findSub_none hf j)

/-! ### `trim` -/

theorem trimRight_isPrefix (s : List Char) : trimRight s <+: s := by
  refine ⟨((s.reverse).takeWhile isPySpace).reverse, ?_⟩
  rw [trimRight, ← List.reverse_append,
    ← List.takeWhile_append_dropWhile (p := isPySpace) (l := s.reverse)]
  · simp

theorem trimLeft_isSuffix (s : List Char) : trimLeft s <:+ s :=
  List.dropWhile_suffix isPySpace

theorem trim_isInfix (s : List Char) : trim s <:+: s :=
  List.IsInfix.trans (trimRight_isPrefix (trimLeft s)).isInfix
    (trimLeft_isSuffix s).isInfix

theorem trimLeft_head_not_ws {s : List Char} {c : Char} {r : List Char}
    (h : trimLeft s = c :: r) : isPySpace c = false := by
  induction s with
  | nil => simp [trimLeft] at h
  | cons a as ih =>
    by_cases ha : isPySpace a
    · rw [trimLeft, List.dropWhile_cons_of_pos ha] at h
      exact ih h
    · rw [trimLeft, List.dropWhile_cons_of_neg ha] at h
      cases h
      simpa using ha

theorem trim_head_not_ws {s : List Char} {c : Char} {r : List Char}
    (h : trim s = c :: r) : isPySpace c = false := by
  obtain ⟨t, ht⟩ := trimRight_isPrefix (trimLeft s)
  rw [trim] at h
  rw [h] at ht
  exact trimLeft_head_not_ws (s := s) (by rw [← ht]; rfl)

theorem trim_cons_of_not_ws {c : Char} {s : List Char}
    (h : isPySpace c = false) : trim (c :: s) = c :: trimRight s := by
  rw [trim, trimLeft, List.dropWhile_cons_of_neg (by simp [h]), trimRight,
    List.reverse_cons, List.dropWhile_append]
  by_cases he : ((s.reverse).dropWhile isPySpace).isEmpty
  · rw [if_pos he, List.dropWhile_cons_of_neg (by simp [h])]
    rw [List.isEmpty_iff] at he
    rw [trimRight, he]
    rfl
  · rw [if_neg he]
    rw [List.reverse_append]
    rfl

/-! ### `splitNl` and `joinNl` -/

theorem splitNl_ne_nil (s : List Char) : splitNl s ≠ [] := by
  induction s with
  | nil => simp [splitNl]
  | cons c rest ih =>
    rw [splitNl]
    by_cases h : c = '\n'
    · simp [h]
    · rw [if_neg h]
      cases hs : splitNl rest with
      | nil => simp
      | cons l ls => simp

theorem splitNl_cons_nl (s : List Char) : splitNl ('\n' :: s) = [] :: splitNl s := by
  rw [splitNl, if_pos rfl]

theorem splitNl_cons_ne {c : Char} (s : List Char) (h : c ≠ '\n') :
    splitNl (c :: s) = (c :: (splitNl s).headI) :: (splitNl s).tail := by
  rw [splitNl, if_neg h]
  cases hs : splitNl s with
  | nil => exact absurd hs (splitNl_ne_nil s)
  | cons l ls => rfl

theorem joinNl_splitNl (s : List Char) : joinNl (splitNl s) = s := by
  induction s with
  | nil => rfl
  | cons c rest ih =>
    by_cases h : c = '\n'
    · subst h
      rw [splitNl_cons_nl]
      cases hs : splitNl rest with
      | nil => exact absurd hs (splitNl_ne_nil rest)
      | cons l ls =>
        rw [hs] at ih
        calc joinNl ([] :: l :: ls) = '\n' :: joinNl (l :: ls) := rfl
        _ = '\n' :: rest := by rw [ih]
    · rw [splitNl_cons_ne rest h]
      cases hs : splitNl rest with
      | nil => exact absurd hs (splitNl_ne_nil rest)
      | cons l ls =>
        rw [hs] at ih
        cases ls with
        | nil =>
          simp only [List.headI_cons, List.tail_cons]
          calc joinNl [c :: l] = c :: l := rfl
          _ = c :: rest := by rw [← ih]; rfl
        | cons l2 ls2 =>
          simp only [List.headI_cons, List.tail_cons]
          calc joinNl ((c :: l) :: l2 :: ls2)
              = c :: (l ++ '\n' :: joinNl (l2 :: ls2)) := rfl
          _ = c :: joinNl (l :: l2 :: ls2) := rfl
          _ = c :: rest := by rw [ih]

theorem splitNl_headI_isPrefix (s : List Char) : (splitNl s).headI <+: s := by
  induction s with
  | nil => simp [splitNl]
  | cons c rest ih =>
    by_cases hc : c = '\n'
    · subst hc
      rw [splitNl_cons_nl]
      simp
    · rw [splitNl_cons_ne rest hc]
      obtain ⟨t, ht⟩ := ih
      exact ⟨t, by rw [List.headI_cons, List.cons_append, ht]⟩

theorem mem_splitNl_isInfix {l s : List Char} (h : l ∈ splitNl s) : l <:+: s := by
  induction s generalizing l with
  | nil =>
    simp [splitNl] at h
    simp [h]
  | cons c rest ih =>
    by_cases hc : c = '\n'
    · subst hc
      rw [splitNl_cons_nl] at h
      rcases List.mem_cons.mp h with h1 | h2
      · simp [h1]
      · exact List.infix_cons (ih h2)
    · rw [splitNl_cons_ne rest hc] at h
      rcases List.mem_cons.mp h with h1 | h2
      · subst h1
        have hp : c :: (splitNl rest).headI <+: c :: rest := by
          obtain ⟨t, ht⟩ := splitNl_headI_isPrefix rest
          exact ⟨t, by rw [List.cons_append, ht]⟩
        exact hp.isInfix
      · have hmem : l ∈ splitNl rest := by
          cases hs : splitNl rest with
          | nil => exact absurd hs (splitNl_ne_nil rest)
          | cons a as =>
            rw [hs] at h2
            exact List.mem_cons_of_mem a (by simpa using h2)
        exact List.infix_cons (ih hmem)

theorem prefix_splitNl_headI {pat s : List Char}
    (hnl : ('\n' : Char) ∉ pat) (h : pat <+: s) : pat <+: (splitNl s).headI := by
  induction pat generalizing s with
  | nil => simp
  | cons p pr ih =>
    obtain ⟨t, ht⟩ := h
    cases s with
    | nil => simp at ht
    | cons c rest =>
      rw [List.cons_append] at ht
      injection ht with h1 h2
      subst h1
      subst h2
      have hpc : p ≠ '\n' := fun hx => hnl (by rw [hx]; exact List.mem_cons_self _ _)
      rw [splitNl_cons_ne (pr ++ t) hpc, List.headI_cons]
      have hpr : pr <+: pr ++ t := ⟨t, rfl⟩
      obtain ⟨t2, ht2⟩ := ih (fun hx => hnl (List.mem_cons_of_mem _ hx)) hpr
      exact ⟨t2, by rw [List.cons_append, ht2]⟩

theorem isInfix_splitNl_exists {pat s : List Char}
    (hnl : ('\n' : Char) ∉ pat) (h : pat <:+: s) :
    ∃ l ∈ splitNl s, pat <:+: l := by
  induction s with
  | nil =>
    rw [List.infix_nil] at h
    exact ⟨[], by simp [splitNl], by simp [h]⟩
  | cons c rest ih =>
    rcases List.infix_cons_iff.mp h with hpre | hinf
    · by_cases hc : c = '\n'
      · subst hc
        cases pat with
        | nil =>
          refine ⟨(splitNl ('\n' :: rest)).headI, ?_, by simp⟩
          cases hs : splitNl ('\n' :: rest) with
          | nil => exact absurd hs (splitNl_ne_nil _)
          | cons a as => simp
        | cons p pr =>
          obtain ⟨t, ht⟩ := hpre
          rw [List.cons_append] at ht
          injection ht with h1 h2
          subst h1
          exact absurd (List.mem_cons_self _ _) hnl
      · refine ⟨(splitNl (c :: rest)).headI, ?_, (prefix_splitNl_headI hnl hpre).isInfix⟩
        cases hs : splitNl (c :: rest) with
        | nil => exact absurd hs (splitNl_ne_nil _)
        | cons a as => simp
    · obtain ⟨l, hl, hpl⟩ := ih hinf
      by_cases hc : c = '\n'
      · subst hc
        rw [splitNl_cons_nl]
        exact ⟨l, List.mem_cons_of_mem _ hl, hpl⟩
      · rw [splitNl_cons_ne rest hc]
        cases hs : splitNl rest with
        | nil => exact absurd hs (splitNl_ne_nil rest)
        | cons a as =>
          rw [hs] at hl
          simp only [List.headI_cons, List.tail_cons]
          rcases List.mem_cons.mp hl with h1 | h2
          · subst h1
            exact ⟨c :: l, List.mem_cons_self _ _, List.infix_cons hpl⟩
          · exact ⟨l, List.mem_cons_of_mem _ h2, hpl⟩

theorem splitNl_lowerL (s : List Char) :
    splitNl (lowerL s) = (splitNl s).map lowerL := by
  induction s with
  | nil => rfl
  | cons c rest ih =>
    show splitNl (c.toLower :: lowerL rest) = _
    by_cases hc : c = '\n'
    · subst hc
      rw [show ('\n' : Char).toLower = '\n' from rfl, splitNl_cons_nl,
        splitNl_cons_nl, ih]
      rfl
    · have hcl : c.toLower ≠ '\n' := fun hx => hc ((toLower_eq_newline_iff c).mp hx)
      rw [splitNl_cons_ne (lowerL rest) hcl, splitNl_cons_ne rest hc, ih]
      cases hs : splitNl rest with
      | nil => exact absurd hs (splitNl_ne_nil rest)
      | cons a as => rfl

theorem findSub_eq_none_of_not_isInfix {pat s : List Char}
    (h : ¬ pat <:+: s) : findSub pat s = none := by
  cases hf : findSub pat s with
  | none => rfl
  | some i =>
    exact absurd (isInfix_iff_exists_drop.mpr ⟨i, findSub_some_prefix hf⟩) h

theorem not_isInfix_take_findSub {pat s : List Char} {i : Nat}
    (h : findSub pat s = some i) (hne : pat ≠ []) : ¬ pat <:+: s.take i := by
  intro hinf
  obtain ⟨j, hj⟩ := isInfix_iff_exists_drop.mp hinf
  have hlen : pat.length ≤ (s.take i).length - j := by
    have := hj.length_le
    simp only [List.length_drop] at this
    omega
  have hji : j < i := by
    have h1 : (s.take i).length ≤ i := by simp
    have h2 : 0 < pat.length := List.length_pos.mpr hne
    omega
  have htp : s.take i <+: s := ⟨s.drop i, List.take_append_drop i s⟩
  have hdj : pat <+: s.drop j := hj.trans (htp.drop j)
  exact findSub_min h j hji hdj

theorem parse_level_6_content_fst (a b : List Char) :
    (parse_level_6_content a b).1 = a := by
  rw [parse_level_6_content]
  cases findWritingIndex writing_prompt_markers b with
  | some i => rfl
  | none => rfl

theorem parse_level_1_and_3_content_fst (a b : List Char) :
    (parse_level_1_and_3_content a b).1 = a := rfl

/-- Claim C4: for any raw text not containing the exact literal
`"Homework:"`, the segmenter returns the trimmed full text as articleText
and empty instruction, questions and writingPrompt, for every level; the
empty input is an instance, with every field empty. -/
theorem claim_C4_no_homework_marker (text : List Char) (level : Nat)
    (h : ¬ hwMarker <:+: text) :
    parse_level_content text level = (trim text, [], [], []) := by
  rw [parse_level_content]
  by_cases ht : text = []
  · subst ht
    rw [if_pos rfl]
    rfl
  · rw [if_neg ht, findSub_eq_none_of_not_isInfix h]

/-- Witness for C4 at the empty input: the marker does not occur and every
output field is empty. -/
theorem claim_C4_witness :
    parse_level_content [] 1 = ([], [], [], []) :=
  claim_C4_no_homework_marker [] 1 (by decide)

/-- Claim C10: the articleText component returned by the segmenter never
contains the literal `"Homework:"`, for any input text and level. -/
theorem claim_C10_articleText_no_marker (text : List Char) (level : Nat) :
    ¬ hwMarker <:+: (parse_level_content text level).1 := by
  rw [parse_level_content]
  by_cases ht : text = []
  · subst ht
    rw [if_pos rfl]
    decide
  · rw [if_neg ht]
    cases hf : findSub hwMarker text with
    | none =>
      intro hinf
      have : hwMarker <:+: text := hinf.trans (trim_isInfix text)
      obtain ⟨j, hj⟩ := isInfix_iff_exists_drop.mp this
      exact findSub_none hf j hj
    | some i =>
      simp only
      intro hinf
      have h1 : ¬ hwMarker <:+: text.take i :=
        not_isInfix_take_findSub hf (by decide)
      by_cases hl : level = 6
      · rw [if_pos hl, parse_level_6_content_fst] at hinf
        exact h1 (hinf.trans (trim_isInfix _))
      · rw [if_neg hl, parse_level_1_and_3_content_fst] at hinf
        exact h1 (hinf.trans (trim_isInfix _))

theorem extract_text_head (paras : List (List Char)) :
    extract_text_from_docx paras = [] ∨
      ∃ c r, extract_text_from_docx paras = c :: r ∧ isPySpace c = false := by
  rw [extract_text_from_docx]
  cases hp : (paras.map trim).filter (fun p => !p.isEmpty) with
  | nil => exact Or.inl rfl
  | cons p ps =>
    right
    have hmem : p ∈ (paras.map trim).filter (fun p => !p.isEmpty) := by
      rw [hp]; exact List.mem_cons_self _ _
    have hne : ¬ p.isEmpty := by simpa using (List.mem_filter.mp hmem).2
    have htr : ∃ q, p = trim q := by
      have := (List.mem_filter.mp hmem).1
      obtain ⟨q, _, hq⟩ := List.mem_map.mp this
      exact ⟨q, hq.symm⟩
    obtain ⟨q, hq⟩ := htr
    cases hpc : p with
    | nil => rw [hpc] at hne; simp at hne
    | cons c r =>
      have hcw : isPySpace c = false := trim_head_not_ws (by rw [← hq, hpc])
      cases ps with
      | nil => exact ⟨c, r, rfl, hcw⟩
      | cons p2 ps2 => exact ⟨c, r ++ '\n' :: joinNl (p2 :: ps2), rfl, hcw⟩

/-- Claim C2: the headline stored for a parsed level is the first non-blank
line of the extracted raw text, trimmed, and the empty string when the text
has no non-blank line; this holds for every input document. -/
theorem claim_C2_headline (paras : List (List Char)) :
    headlineOf (extract_text_from_docx paras) =
      firstNonBlankLineTrimmed (extract_text_from_docx paras) := by
  rcases extract_text_head paras with h | ⟨c, r, h, hcw⟩
  · rw [h]
    rfl
  · rw [h, headlineOf, if_neg (by simp), firstNonBlankLineTrimmed]
    have hcnl : c ≠ '\n' := by
      intro hx
      rw [hx] at hcw
      simp [isPySpace] at hcw
    rw [splitNl_cons_ne r hcnl]
    have htc : trim (c :: (splitNl r).headI) = c :: trimRight (splitNl r).headI :=
      trim_cons_of_not_ws hcw
    rw [List.find?_cons_of_pos _ (by simp [htc]), List.headI_cons]

/-- Counterexample to claim C1 as stated: on a level-6 homework block that
contains both the `Academic Writing` marker (earlier) and the `Free
Writing` marker (later), the code's result differs from the claim's
description, because the code trims `homeworkBlock[0:p]` before the
instruction/questions extraction while the claim keeps it untrimmed. -/
theorem claim_C1_counterexample :
    containsSub (lowerL ("Academic Writing".toList))
        (lowerL (" Academic Writing intro \nFree Writing topic".toList)) = true ∧
    containsSub (lowerL ("Free Writing".toList))
        (lowerL (" Academic Writing intro \nFree Writing topic".toList)) = true ∧
    parse_level_6_content ("ART".toList)
        (" Academic Writing intro \nFree Writing topic".toList) ≠
      parse_level_6_content_claimed ("ART".toList)
        (" Academic Writing intro \nFree Writing topic".toList) := by
  refine ⟨by decide, by decide, by decide⟩

/-- Claim C1 as amended: for the advanced level, the selected marker is the
first one in the fixed priority list (`Free Writing`, then
`Academic Writing`, then `Writing Practice`) that occurs anywhere in the
homework block, case-insensitively — regardless of where any lower-priority
marker occurs; the split point `p` is the selected marker's first
occurrence, `textBeforeWriting` is the *trimmed* `homeworkBlock[0:p]`,
`writingPrompt` is the trimmed `homeworkBlock[p:]`, and when no marker
occurs the whole block feeds the instruction/questions extraction with an
empty writing prompt. -/
theorem claim_C1_amended :
    (∀ article block p,
      findSub (lowerL ("Free Writing".toList)) (lowerL block) = some p →
      parse_level_6_content article block =
        (article,
         (extract_instruction_and_questions (trim (block.take p))).1,
         (extract_instruction_and_questions (trim (block.take p))).2,
         trim (block.drop p))) ∧
    (∀ article block p,
      findSub (lowerL ("Free Writing".toList)) (lowerL block) = none →
      findSub (lowerL ("Academic Writing".toList)) (lowerL block) = some p →
      parse_level_6_content article block =
        (article,
         (extract_instruction_and_questions (trim (block.take p))).1,
         (extract_instruction_and_questions (trim (block.take p))).2,
         trim (block.drop p))) ∧
    (∀ article block p,
      findSub (lowerL ("Free Writing".toList)) (lowerL block) = none →
      findSub (lowerL ("Academic Writing".toList)) (lowerL block) = none →
      findSub (lowerL ("Writing Practice".toList)) (lowerL block) = some p →
      parse_level_6_content article block =
        (article,
         (extract_instruction_and_questions (trim (block.take p))).1,
         (extract_instruction_and_questions (trim (block.take p))).2,
         trim (block.drop p))) ∧
    (∀ article block,
      findSub (lowerL ("Free Writing".toList)) (lowerL block) = none →
      findSub (lowerL ("Academic Writing".toList)) (lowerL block) = none →
      findSub (lowerL ("Writing Practice".toList)) (lowerL block) = none →
      parse_level_6_content article block =
        (article,
         (extract_instruction_and_questions block).1,
         (extract_instruction_and_questions block).2,
         [])) := by
  refine ⟨?_, ?_, ?_, ?_⟩
  · intro article block p hf
    have hidx : findWritingIndex writing_prompt_markers block = some p := by
      rw [writing_prompt_markers, findWritingIndex, hf]
    rw [parse_level_6_content, hidx]
  · intro article block p hf ha
    have hidx : findWritingIndex writing_prompt_markers block = some p := by
      simp only [writing_prompt_markers, findWritingIndex, hf, ha]
    rw [parse_level_6_content, hidx]
  · intro article block p hf ha hw
    have hidx : findWritingIndex writing_prompt_markers block = some p := by
      simp only [writing_prompt_markers, findWritingIndex, hf, ha, hw]
    rw [parse_level_6_content, hidx]
  · intro article block hf ha hw
    have hw4 : findSub (lowerL ("writing practice".toList)) (lowerL block) = none := by
      rw [show lowerL ("writing practice".toList) =
        lowerL ("Writing Practice".toList) from by decide]
      exact hw
    have hidx : findWritingIndex writing_prompt_markers block = none := by
      simp only [writing_prompt_markers, findWritingIndex, hf, ha, hw, hw4]
    rw [parse_level_6_content, hidx]

/-- Witness for the amended claim C1: a block where the lower-priority
`Academic Writing` occurs at 0 but the higher-priority `Free Writing` at 19
wins, and a block without `Free Writing` where `Academic Writing` at 19
wins over a `Writing Practice` occurrence at 0. -/
theorem claim_C1_witness :
    (findSub (lowerL ("Free Writing".toList))
        (lowerL ("Academic Writing x Free Writing y".toList)) = some 19 ∧
     parse_level_6_content [] ("Academic Writing x Free Writing y".toList) =
       ([],
        (extract_instruction_and_questions
          (trim (("Academic Writing x Free Writing y".toList).take 19))).1,
        (extract_instruction_and_questions
          (trim (("Academic Writing x Free Writing y".toList).take 19))).2,
        trim (("Academic Writing x Free Writing y".toList).drop 19))) ∧
    (findSub (lowerL ("Free Writing".toList))
        (lowerL ("Writing Practice x Academic Writing y".toList)) = none ∧
     findSub (lowerL ("Academic Writing".toList))
        (lowerL ("Writing Practice x Academic Writing y".toList)) = some 19 ∧
     findSub (lowerL ("Writing Practice".toList))
        (lowerL ("Writing Practice x Academic Writing y".toList)) = some 0 ∧
     parse_level_6_content [] ("Writing Practice x Academic Writing y".toList) =
       ([],
        (extract_instruction_and_questions
          (trim (("Writing Practice x Academic Writing y".toList).take 19))).1,
        (extract_instruction_and_questions
          (trim (("Writing Practice x Academic Writing y".toList).take 19))).2,
        trim (("Writing Practice x Academic Writing y".toList).drop 19))) :=
  ⟨⟨by decide,
    claim_C1_amended.1 [] ("Academic Writing x Free Writing y".toList) 19
      (by decide)⟩,
   ⟨by decide, by decide, by decide,
    claim_C1_amended.2.1 [] ("Writing Practice x Academic Writing y".toList) 19
      (by decide) (by decide)⟩⟩

theorem lineScan_isSome_iff (m : List Char) (lines : List (List Char)) :
    (lineScan m lines).isSome = true ↔
      ∃ l ∈ lines, containsSub (lowerL m) (lowerL l) = true := by
  induction lines with
  | nil => simp [lineScan]
  | cons line rest ih =>
    rw [lineScan]
    by_cases hc : containsSub (lowerL m) (lowerL line) = true
    · rw [if_pos hc]
      simp only [Option.isSome_some, true_iff]
      exact ⟨line, List.mem_cons_self _ _, hc⟩
    · rw [if_neg hc, ih]
      constructor
      · rintro ⟨l, hl, hcl⟩
        exact ⟨l, List.mem_cons_of_mem _ hl, hcl⟩
      · rintro ⟨l, hl, hcl⟩
        rcases List.mem_cons.mp hl with h1 | h2
        · exact absurd (h1 ▸ hcl) hc
        · exact ⟨l, h2, hcl⟩

theorem findSub_isSome_iff_lineScan (m content : List Char)
    (hnl : ('\n' : Char) ∉ lowerL m) :
    (findSub (lowerL m) (lowerL content)).isSome = true ↔
      (lineScan m (splitNl content)).isSome = true := by
  rw [findSub_isSome_iff, lineScan_isSome_iff]
  constructor
  · intro h
    obtain ⟨l', hl', hinf⟩ := isInfix_splitNl_exists hnl h
    rw [splitNl_lowerL] at hl'
    obtain ⟨l, hl, rfl⟩ := List.mem_map.mp hl'
    exact ⟨l, hl, by rw [containsSub, findSub_isSome_iff]; exact hinf⟩
  · rintro ⟨l, hl, hcl⟩
    rw [containsSub, findSub_isSome_iff] at hcl
    have h1 : lowerL l <:+: lowerL content := (mem_splitNl_isInfix hl).map Char.toLower
    exact hcl.trans h1

theorem extractIQGo_eq_claimed (markers : List (List Char)) (content : List Char)
    (h : ∀ m ∈ markers, ('\n' : Char) ∉ lowerL m) :
    extractIQGo markers content = extractIQClaimedGo markers content := by
  induction markers with
  | nil => rfl
  | cons m rest ih =>
    have hm : ('\n' : Char) ∉ lowerL m := h m (List.mem_cons_self _ _)
    have hrest : ∀ x ∈ rest, ('\n' : Char) ∉ lowerL x :=
      fun x hx => h x (List.mem_cons_of_mem _ hx)
    rw [extractIQGo, extractIQClaimedGo]
    cases hf : findSub (lowerL m) (lowerL content) with
    | some i =>
      have hsc : (lineScan m (splitNl content)).isSome = true :=
        (findSub_isSome_iff_lineScan m content hm).mp (by rw [hf]; rfl)
      cases hls : lineScan m (splitNl content) with
      | some iq => rfl
      | none => rw [hls] at hsc; cases hsc
    | none =>
      cases hls : lineScan m (splitNl content) with
      | some iq =>
        have : (findSub (lowerL m) (lowerL content)).isSome = true :=
          (findSub_isSome_iff_lineScan m content hm).mpr (by rw [hls]; rfl)
        rw [hf] at this
        cases this
      | none => exact ih hrest

/-- Claim C3: `extract_instruction_and_questions` behaves exactly as the
spec words it: the first marker in priority order for which some line of
the block contains the marker case-insensitively is selected (the first
matching line winning within a marker), the instruction is that trimmed
line, the questions are the trimmed join of the following lines, and when
no marker matches any line the result is an empty instruction with the
block unchanged. -/
theorem claim_C3_instruction_extraction (content : List Char) :
    extract_instruction_and_questions content =
      extract_instruction_and_questions_claimed content :=
  extractIQGo_eq_claimed instruction_markers content (by decide)

theorem isPySpace_toLower (c : Char) : isPySpace c.toLower = isPySpace c := by
  have h32 : (Char.toLower c).toNat =
      if 65 ≤ c.toNat ∧ c.toNat ≤ 90 then c.toNat + 32 else c.toNat := toLower_toNat c
  rw [Bool.eq_iff_iff]
  simp only [isPySpace, Bool.or_eq_true, decide_eq_true_eq, h32]
  by_cases h : 65 ≤ c.toNat ∧ c.toNat ≤ 90
  · rw [if_pos h]
    obtain ⟨h1, h2⟩ := h
    constructor
    · intro hx
      omega
    · intro hx
      omega
  · rw [if_neg h]

theorem isAllowed_toLower {c : Char} (h : isAllowed c = true) :
    isAllowed c.toLower = true := by
  simp only [isAllowed, isAsciiLetter, isAsciiDigit, isPySpace, Bool.or_eq_true,
    Bool.and_eq_true, decide_eq_true_eq, toLower_toNat] at h ⊢
  by_cases hu : 65 ≤ c.toNat ∧ c.toNat ≤ 90
  · rw [if_pos hu]
    refine Or.inl (Or.inl (Or.inl (Or.inr ?_)))
    omega
  · rw [if_neg hu]
    exact h

theorem collapseWsGo_true_eq (r : List Char) :
    collapseWsGo true r = collapseWsGo false (r.dropWhile isPySpace) := by
  induction r with
  | nil => rfl
  | cons a rest ih =>
    by_cases ha : isPySpace a
    · rw [List.dropWhile_cons_of_pos ha, collapseWsGo, if_pos ha, if_pos rfl, ih]
    · rw [List.dropWhile_cons_of_neg ha, collapseWsGo, if_neg ha, collapseWsGo,
        if_neg ha]

theorem collapseWs_cons_pos {c : Char} {r : List Char} (h : isPySpace c = true) :
    collapseWs (c :: r) = '-' :: collapseWs (r.dropWhile isPySpace) := by
  rw [collapseWs, collapseWsGo, if_pos h, if_neg (by simp), collapseWsGo_true_eq]
  rfl

theorem collapseWs_cons_neg {c : Char} {r : List Char} (h : isPySpace c = false) :
    collapseWs (c :: r) = c :: collapseWs r := by
  rw [collapseWs, collapseWsGo, if_neg (by simp [h])]
  rfl

theorem collapseWs_mem_aux :
    ∀ (n : Nat) (l : List Char), l.length ≤ n → ∀ c ∈ collapseWs l,
      c = '-' ∨ (c ∈ l ∧ isPySpace c = false) := by
  intro n
  induction n with
  | zero =>
    intro l hl c hc
    have h0 : l = [] := List.length_eq_zero.mp (Nat.le_zero.mp hl)
    subst h0
    cases hc
  | succ n ih =>
    intro l hl c hc
    cases l with
    | nil => cases hc
    | cons a rest =>
      have hrn : rest.length ≤ n := by simpa using Nat.le_of_succ_le_succ hl
      by_cases ha : isPySpace a
      · rw [collapseWs_cons_pos ha] at hc
        rcases List.mem_cons.mp hc with h1 | h2
        · exact Or.inl h1
        · have hlen : (rest.dropWhile isPySpace).length ≤ n :=
            Nat.le_trans ((List.dropWhile_sublist isPySpace).length_le) hrn
          rcases ih _ hlen c h2 with h3 | ⟨h4, h5⟩
          · exact Or.inl h3
          · exact Or.inr
              ⟨List.mem_cons_of_mem _ ((List.dropWhile_sublist _).subset h4), h5⟩
      · rw [collapseWs_cons_neg (by simpa using ha)] at hc
        rcases List.mem_cons.mp hc with h1 | h2
        · subst h1
          refine Or.inr ⟨List.mem_cons_self _ _, ?_⟩
          simpa using ha
        · rcases ih rest hrn c h2 with h3 | ⟨h4, h5⟩
          · exact Or.inl h3
          · exact Or.inr ⟨List.mem_cons_of_mem _ h4, h5⟩

theorem collapseWs_mem {l : List Char} {c : Char} (h : c ∈ collapseWs l) :
    c = '-' ∨ (c ∈ l ∧ isPySpace c = false) :=
  collapseWs_mem_aux l.length l (Nat.le_refl _) c h

theorem slugify_mem {s : List Char} {c : Char} (h : c ∈ slugify s) :
    isAllowed c = true ∧ c.toLower = c ∧ isPySpace c = false := by
  rw [slugify] at h
  rcases collapseWs_mem h with h1 | ⟨h2, h3⟩
  · subst h1
    refine ⟨by decide, by decide, by decide⟩
  · have h4 : c ∈ lowerL ((s.filter isAllowed)) :=
      ((trim_isInfix _).sublist.subset) h2
    obtain ⟨d, hd, rfl⟩ := List.mem_map.mp h4
    have hda : isAllowed d = true := (List.mem_filter.mp hd).2
    exact ⟨isAllowed_toLower hda, toLower_toLower d, h3⟩

theorem dropWhile_eq_self_of_none {p : Char → Bool} {l : List Char}
    (h : ∀ c ∈ l, p c = false) : l.dropWhile p = l := by
  cases l with
  | nil => rfl
  | cons a rest =>
    rw [List.dropWhile_cons_of_neg]
    rw [h a (List.mem_cons_self _ _)]
    simp

theorem trim_eq_self_of_no_ws {l : List Char}
    (h : ∀ c ∈ l, isPySpace c = false) : trim l = l := by
  rw [trim, trimLeft, dropWhile_eq_self_of_none h, trimRight,
    dropWhile_eq_self_of_none (fun c hc => h c (List.mem_reverse.mp hc)),
    List.reverse_reverse]

theorem collapseWs_eq_self_of_no_ws {l : List Char}
    (h : ∀ c ∈ l, isPySpace c = false) : collapseWs l = l := by
  induction l with
  | nil => rfl
  | cons a rest ih =>
    rw [collapseWs_cons_neg (h a (List.mem_cons_self _ _)),
      ih (fun c hc => h c (List.mem_cons_of_mem _ hc))]

/-- Claim C6: slugification is idempotent: re-slugifying an already
slugified string returns it unchanged, for every string. -/
theorem claim_C6_slugify_idempotent (s : List Char) :
    slugify (slugify s) = slugify s := by
  have hmem := fun c hc => slugify_mem (s := s) (c := c) hc
  have h1 : (slugify s).filter isAllowed = slugify s :=
    List.filter_eq_self.mpr (fun c hc => (hmem c hc).1)
  have h2 : lowerL (slugify s) = slugify s := by
    rw [lowerL]
    calc (slugify s).map Char.toLower = (slugify s).map id :=
      List.map_congr_left (fun c hc => (hmem c hc).2.1)
    _ = slugify s := List.map_id _
  have h3 : trim (slugify s) = slugify s :=
    trim_eq_self_of_no_ws (fun c hc => (hmem c hc).2.2)
  have h4 : collapseWs (slugify s) = slugify s :=
    collapseWs_eq_self_of_no_ws (fun c hc => (hmem c hc).2.2)
  rw [slugify, h1, h2, h3, h4]

theorem trimRight_eq_self_of_no_ws {l : List Char}
    (h : ∀ c ∈ l, isPySpace c = false) : trimRight l = l := by
  rw [trimRight, dropWhile_eq_self_of_none (fun c hc => h c (List.mem_reverse.mp hc)),
    List.reverse_reverse]

theorem trimRight_append (a b : List Char) :
    trimRight (a ++ b) = if trimRight b = [] then trimRight a else a ++ trimRight b := by
  rw [trimRight, List.reverse_append, List.dropWhile_append]
  by_cases he : ((b.reverse).dropWhile isPySpace).isEmpty
  · rw [if_pos he]
    rw [List.isEmpty_iff] at he
    rw [if_pos (by rw [trimRight, he]; rfl)]
    rfl
  · rw [if_neg he]
    rw [List.isEmpty_iff] at he
    rw [if_neg (by rw [trimRight]; intro hx; exact he (by simpa using congrArg List.reverse hx))]
    rw [List.reverse_append, List.reverse_reverse]
    rfl

theorem trimRight_eq_nil_iff {l : List Char} :
    trimRight l = [] ↔ ∀ c ∈ l, isPySpace c = true := by
  rw [trimRight]
  constructor
  · intro h c hc
    have : (l.reverse).dropWhile isPySpace = [] := by
      simpa using congrArg List.reverse h
    exact List.dropWhile_eq_nil_iff.mp this c (List.mem_reverse.mpr hc)
  · intro h
    rw [List.dropWhile_eq_nil_iff.mpr (fun c hc => h c (List.mem_reverse.mp hc))]
    rfl

theorem wsWords_cons_ws {c : Char} {r : List Char} (h : isPySpace c = true) :
    wsWords (c :: r) = wsWords r := by
  rw [wsWords, if_pos h]

theorem wsWords_cons_not_ws {c : Char} {r : List Char} (h : isPySpace c = false) :
    wsWords (c :: r) =
      (c :: r.takeWhile (fun d => !isPySpace d)) ::
        wsWords (r.dropWhile (fun d => !isPySpace d)) := by
  rw [wsWords, if_neg (by simp [h])]

theorem wsWords_eq_nil_of_all_ws {l : List Char}
    (h : ∀ c ∈ l, isPySpace c = true) : wsWords l = [] := by
  induction l with
  | nil => rw [wsWords]
  | cons c r ih =>
    rw [wsWords_cons_ws (h c (List.mem_cons_self _ _))]
    exact ih (fun d hd => h d (List.mem_cons_of_mem _ hd))

theorem wsWords_ne_nil {l : List Char} {c : Char}
    (hc : c ∈ l) (h : isPySpace c = false) : wsWords l ≠ [] := by
  induction l with
  | nil => cases hc
  | cons a r ih =>
    by_cases ha : isPySpace a
    · rw [wsWords_cons_ws ha]
      rcases List.mem_cons.mp hc with h1 | h2
      · subst h1
        rw [ha] at h
        cases h
      · exact ih h2
    · rw [wsWords_cons_not_ws (by simpa using ha)]
      simp

theorem trim_cons_ws {c : Char} {r : List Char} (h : isPySpace c = true) :
    trim (c :: r) = trim r := by
  rw [trim, trimLeft, List.dropWhile_cons_of_pos h]
  rfl

theorem collapseWs_append_of_no_ws {w u : List Char}
    (h : ∀ c ∈ w, isPySpace c = false) :
    collapseWs (w ++ u) = w ++ collapseWs u := by
  induction w with
  | nil => rfl
  | cons a r ih =>
    rw [List.cons_append, collapseWs_cons_neg (h a (List.mem_cons_self _ _)),
      ih (fun c hc => h c (List.mem_cons_of_mem _ hc))]
    rfl

theorem trimLeft_trimRight_comm (l : List Char) :
    trimLeft (trimRight l) = trimRight (trimLeft l) := by
  induction l with
  | nil => rfl
  | cons a r ih =>
    by_cases ha : isPySpace a
    · have h1 : trimLeft (a :: r) = trimLeft r := by
        rw [trimLeft, List.dropWhile_cons_of_pos ha]
        rfl
      have h2 : trimRight (a :: r) =
          if trimRight r = [] then trimRight [a] else a :: trimRight r := by
        rw [show a :: r = [a] ++ r from rfl, trimRight_append]
        simp only [List.singleton_append]
      rw [h1, h2]
      by_cases hr : trimRight r = []
      · rw [if_pos hr]
        have hra : trimRight [a] = [] := by
          rw [trimRight_eq_nil_iff]
          intro c hc
          rw [List.mem_singleton.mp hc]
          exact ha
        rw [hra]
        have : trimRight (trimLeft r) = [] := by
          rw [trimRight_eq_nil_iff]
          intro c hc
          exact trimRight_eq_nil_iff.mp hr c ((trimLeft_isSuffix r).sublist.subset hc)
        rw [this]
        rfl
      · rw [if_neg hr]
        have : trimLeft (a :: trimRight r) = trimLeft (trimRight r) := by
          rw [trimLeft, List.dropWhile_cons_of_pos ha]
          rfl
        rw [this, ih]
    · have ha' : isPySpace a = false := by simpa using ha
      have h1 : trimLeft (a :: r) = a :: r := by
        rw [trimLeft, List.dropWhile_cons_of_neg (by simp [ha'])]
      have h2 : trimRight (a :: r) =
          if trimRight r = [] then trimRight [a] else a :: trimRight r := by
        rw [show a :: r = [a] ++ r from rfl, trimRight_append]
        simp only [List.singleton_append]
      have hra : trimRight [a] = [a] :=
        trimRight_eq_self_of_no_ws (fun c hc => by rw [List.mem_singleton.mp hc]; exact ha')
      rw [h1, h2]
      by_cases hr : trimRight r = []
      · rw [if_pos hr, hra, trimLeft, List.dropWhile_cons_of_neg (by simp [ha'])]
      · rw [if_neg hr, trimLeft, List.dropWhile_cons_of_neg (by simp [ha'])]

theorem dropWhile_head_false {p : Char → Bool} {l : List Char} {c : Char}
    {r : List Char} (h : l.dropWhile p = c :: r) : p c = false := by
  induction l with
  | nil => simp at h
  | cons a as ih =>
    by_cases ha : p a
    · rw [List.dropWhile_cons_of_pos ha] at h
      exact ih h
    · rw [List.dropWhile_cons_of_neg ha] at h
      injection h with h1 h2
      subst h1
      simpa using ha

theorem joinHyphen_cons_ne {x : List Char} {ys : List (List Char)}
    (h : ys ≠ []) : joinHyphen (x :: ys) = x ++ '-' :: joinHyphen ys := by
  cases ys with
  | nil => exact absurd rfl h
  | cons y ys2 => rfl

theorem collapseWs_trim_aux :
    ∀ (n : Nat) (t : List Char), t.length ≤ n →
      collapseWs (trim t) = joinHyphen (wsWords t) := by
  intro n
  induction n with
  | zero =>
    intro t ht
    have h0 : t = [] := List.length_eq_zero.mp (Nat.le_zero.mp ht)
    subst h0
    rw [show trim [] = [] from rfl, show collapseWs [] = [] from rfl, wsWords, joinHyphen]
  | succ n ih =>
    intro t ht
    cases t with
    | nil => rw [show trim [] = [] from rfl, show collapseWs [] = [] from rfl, wsWords, joinHyphen]
    | cons c r =>
      have hrn : r.length ≤ n := by
        simpa using Nat.le_of_succ_le_succ ht
      by_cases hc : isPySpace c
      · rw [trim_cons_ws hc, wsWords_cons_ws hc]
        exact ih r hrn
      · have hc' : isPySpace c = false := by simpa using hc
        have hw : ∀ x ∈ r.takeWhile (fun d => !isPySpace d), isPySpace x = false := by
          intro x hx
          have := List.mem_takeWhile_imp hx
          simpa using this
        have hr : r.takeWhile (fun d => !isPySpace d) ++
            r.dropWhile (fun d => !isPySpace d) = r :=
          List.takeWhile_append_dropWhile _ _
        rw [trim_cons_of_not_ws hc', wsWords_cons_not_ws hc']
        rw [show trimRight r =
            trimRight (r.takeWhile (fun d => !isPySpace d) ++
              r.dropWhile (fun d => !isPySpace d)) from by rw [hr],
          trimRight_append,
          trimRight_eq_self_of_no_ws hw]
        by_cases hrest : trimRight (r.dropWhile (fun d => !isPySpace d)) = []
        · rw [if_pos hrest]
          have hws : wsWords (r.dropWhile (fun d => !isPySpace d)) = [] :=
            wsWords_eq_nil_of_all_ws (trimRight_eq_nil_iff.mp hrest)
          rw [hws]
          rw [collapseWs_cons_neg hc', collapseWs_eq_self_of_no_ws hw]
          rfl
        · rw [if_neg hrest]
          cases hrd : r.dropWhile (fun d => !isPySpace d) with
          | nil => rw [hrd] at hrest; exact absurd rfl hrest
          | cons d rest2 =>
            have hd : isPySpace d = true := by
              have := dropWhile_head_false hrd
              simpa using this
            rw [hrd] at hrest
            have h2 : trimRight rest2 ≠ [] := by
              intro hx
              apply hrest
              rw [show d :: rest2 = [d] ++ rest2 from rfl, trimRight_append,
                if_pos hx, trimRight_eq_nil_iff]
              intro x hx2
              rw [List.mem_singleton.mp hx2]
              exact hd
            have htr2 : trimRight (d :: rest2) = d :: trimRight rest2 := by
              rw [show d :: rest2 = [d] ++ rest2 from rfl, trimRight_append, if_neg h2]
              rfl
            have hlen2 : rest2.length ≤ n := by
              have h3 : (r.dropWhile (fun d => !isPySpace d)).length ≤ r.length :=
                (List.dropWhile_sublist _).length_le
              rw [hrd] at h3
              simp only [List.length_cons] at h3
              omega
            have hexists : ∃ x, x ∈ rest2 ∧ isPySpace x = false := by
              by_contra hno
              push_neg at hno
              apply h2
              rw [trimRight_eq_nil_iff]
              intro x hx
              rcases hb : isPySpace x with hfa | htr
              · exact absurd hb (by simpa using hno x hx)
              · rfl
            obtain ⟨x, hx, hxw⟩ := hexists
            have hne : wsWords rest2 ≠ [] := wsWords_ne_nil hx hxw
            rw [htr2, wsWords_cons_ws hd, joinHyphen_cons_ne hne]
            rw [collapseWs_cons_neg hc', collapseWs_append_of_no_ws hw]
            rw [collapseWs_cons_pos hd]
            rw [show (trimRight rest2).dropWhile isPySpace =
                trimLeft (trimRight rest2) from rfl,
              trimLeft_trimRight_comm,
              show trimRight (trimLeft rest2) = trim rest2 from rfl,
              ih rest2 hlen2]
            rfl

theorem collapseWs_trim_eq_joinHyphen (t : List Char) :
    collapseWs (trim t) = joinHyphen (wsWords t) :=
  collapseWs_trim_aux t.length t (Nat.le_refl _)

/-- Counterexample to claim C9 as stated: `str.replace('.docx', '')`
removes *every* occurrence of `.docx`, not only a trailing extension, and
the attribution-suffix regex is case-sensitive; on a filename exhibiting
both, the code's slug differs from the claim's algorithm. -/
theorem claim_C9_counterexample :
    parse_filename ("Lvl 1 Cats.docx win_ breaking news english.docx".toList) ≠
      parse_filename_claimed ("Lvl 1 Cats.docx win_ breaking news english.docx".toList) := by
  decide

/-- Claim C9 as amended: the slug is computed by removing every occurrence
of `.docx` in one left-to-right pass, stripping the leading level token,
stripping the trailing attribution suffix under a case-sensitive match,
and slugifying the remainder (remove every character that is not a letter,
digit, space or hyphen; lowercase; the slug is the whitespace-separated
words of the result joined by single hyphens). -/
theorem claim_C9_amended (filename : List Char) :
    parse_filename filename = parse_filename_amended filename := by
  rw [parse_filename, parse_filename_amended, slugify, slugify_spec,
    collapseWs_trim_eq_joinHyphen]

theorem mem_finalizeFrom {r : Record} :
    ∀ {n : Nat} {st : Articles}, r ∈ finalizeFrom n st →
      ∃ k s m, r = buildRecord k s m := by
  intro n st
  induction st generalizing n with
  | nil => intro h; cases h
  | cons p rest ih =>
    intro h
    rw [finalizeFrom] at h
    rcases List.mem_cons.mp h with h1 | h2
    · exact ⟨n, p.1, p.2, h1⟩
    · exact ih h2

/-- Claim C7: every emitted record is built by `buildRecord`, and
`buildRecord` resolves the headline by fixed priority over the levels
present for the slug: level 3 first, else level 1, else level 6, else
empty — independently of the other fields. -/
theorem claim_C7_headline_priority :
    (∀ files r, r ∈ runMain files → ∃ k s m, r = buildRecord k s m) ∧
    (∀ n s m e3, getLevel m 3 = some e3 →
      (buildRecord n s m).headline = e3.headline) ∧
    (∀ n s m e1, getLevel m 3 = none → getLevel m 1 = some e1 →
      (buildRecord n s m).headline = e1.headline) ∧
    (∀ n s m e6, getLevel m 3 = none → getLevel m 1 = none →
      getLevel m 6 = some e6 → (buildRecord n s m).headline = e6.headline) ∧
    (∀ n s m, getLevel m 3 = none → getLevel m 1 = none → getLevel m 6 = none →
      (buildRecord n s m).headline = []) := by
  refine ⟨?_, ?_, ?_, ?_, ?_⟩
  · intro files r h
    exact mem_finalizeFrom h
  · intro n s m e3 h3
    simp only [buildRecord, h3]
  · intro n s m e1 h3 h1
    simp only [buildRecord, h3, h1]
  · intro n s m e6 h3 h1 h6
    simp only [buildRecord, h3, h1, h6]
  · intro n s m h3 h1 h6
    simp only [buildRecord, h3, h1, h6]

/-- Witness for C7: a concrete level map containing only level 3 resolves
the headline to the level-3 headline. -/
theorem claim_C7_witness :
    (buildRecord 1 []
      [(3, ⟨"h3".toList, [], [], [], [], []⟩)]).headline = "h3".toList :=
  claim_C7_headline_priority.2.1 1 []
    [(3, ⟨"h3".toList, [], [], [], [], []⟩)]
    ⟨"h3".toList, [], [], [], [], []⟩ rfl

theorem getLevel_map_update {m : List (Nat × LevelEntry)} {k : Nat} {v : LevelEntry}
    (h : m.any (fun p => p.1 = k) = true) :
    getLevel (m.map (fun p => if p.1 = k then (k, v) else p)) k = some v := by
  induction m with
  | nil => cases h
  | cons p rest ih =>
    by_cases hp : p.1 = k
    · rw [List.map_cons, if_pos hp, getLevel, if_pos rfl]
    · rw [List.map_cons, if_neg hp, getLevel, if_neg hp]
      apply ih
      rw [List.any_cons] at h
      simpa [hp] using h

theorem getLevel_append_new {m : List (Nat × LevelEntry)} {k : Nat} {v : LevelEntry}
    (h : m.any (fun p => p.1 = k) = false) :
    getLevel (m ++ [(k, v)]) k = some v := by
  induction m with
  | nil => rw [List.nil_append, getLevel, if_pos rfl]
  | cons p rest ih =>
    rw [List.any_cons] at h
    have hp : p.1 ≠ k := by
      intro hx
      simp [hx] at h
    rw [List.cons_append, getLevel, if_neg hp]
    apply ih
    simpa using (Bool.or_eq_false_iff.mp h).2

theorem getLevel_dictSet_same (m : List (Nat × LevelEntry)) (k : Nat) (v : LevelEntry) :
    getLevel (dictSet m k v) k = some v := by
  rw [dictSet]
  by_cases ha : m.any (fun p => p.1 = k) = true
  · rw [if_pos ha]
    exact getLevel_map_update ha
  · rw [if_neg ha]
    rw [Bool.not_eq_true] at ha
    exact getLevel_append_new ha

theorem getLevel_dictSet_other (m : List (Nat × LevelEntry)) (k : Nat)
    (v : LevelEntry) (k' : Nat) (h : k' ≠ k) :
    getLevel (dictSet m k v) k' = getLevel m k' := by
  rw [dictSet]
  by_cases ha : m.any (fun p => p.1 = k) = true
  · rw [if_pos ha]
    clear ha
    induction m with
    | nil => rfl
    | cons p rest ih =>
      by_cases hp : p.1 = k
      · rw [List.map_cons, if_pos hp, getLevel, if_neg (fun hx => h hx.symm), getLevel,
          if_neg (fun hx => h ((hp.symm.trans hx).symm)), ih]
      · rw [List.map_cons, if_neg hp]
        by_cases hp' : p.1 = k'
        · rw [getLevel, if_pos hp', getLevel, if_pos hp']
        · rw [getLevel, if_neg hp', getLevel, if_neg hp', ih]
  · rw [if_neg ha]
    clear ha
    induction m with
    | nil =>
      simp only [List.nil_append, getLevel]
      rw [if_neg (show ¬ (((k, v) : Nat × LevelEntry).1 = k') from fun hx => h hx.symm)]
    | cons p rest ih =>
      by_cases hp' : p.1 = k'
      · rw [List.cons_append, getLevel, if_pos hp', getLevel, if_pos hp']
      · rw [List.cons_append, getLevel, if_neg hp', getLevel, if_neg hp', ih]

theorem getSlug_addParse_same (st : Articles) (s : List Char) (lvl : Nat)
    (e : LevelEntry) :
    getSlug (addParse st s lvl e) s = some (dictSet ((getSlug st s).getD []) lvl e) := by
  induction st with
  | nil =>
    simp [addParse, getSlug, dictSet]
  | cons p rest ih =>
    by_cases hp : p.1 = s
    · rw [show addParse (p :: rest) s lvl e = (p.1, dictSet p.2 lvl e) :: rest from by
        rw [addParse, if_pos hp],
        getSlug, if_pos hp, getSlug, if_pos hp]
      rfl
    · rw [show addParse (p :: rest) s lvl e = (p.1, p.2) :: addParse rest s lvl e from by
        rw [addParse, if_neg hp],
        getSlug, if_neg hp, getSlug, if_neg hp, ih]

theorem getSlug_addParse_other (st : Articles) (s : List Char) (lvl : Nat)
    (e : LevelEntry) (s' : List Char) (h : s' ≠ s) :
    getSlug (addParse st s lvl e) s' = getSlug st s' := by
  induction st with
  | nil =>
    simp only [addParse, getSlug]
    rw [if_neg (show ¬ (((s, [(lvl, e)]) : List Char × List (Nat × LevelEntry)).1 = s')
      from fun hx => h hx.symm)]
  | cons p rest ih =>
    by_cases hp : p.1 = s
    · rw [show addParse (p :: rest) s lvl e = (p.1, dictSet p.2 lvl e) :: rest from by
        rw [addParse, if_pos hp],
        getSlug, getSlug]
      by_cases hp' : p.1 = s'
      · exact absurd (hp'.symm.trans hp) h
      · rw [if_neg hp', if_neg hp']
    · rw [show addParse (p :: rest) s lvl e = (p.1, p.2) :: addParse rest s lvl e from by
        rw [addParse, if_neg hp],
        getSlug, getSlug]
      by_cases hp' : p.1 = s'
      · rw [if_pos hp', if_pos hp']
      · rw [if_neg hp', if_neg hp', ih]

theorem keys_addParse (st : Articles) (s : List Char) (lvl : Nat) (e : LevelEntry) :
    (addParse st s lvl e).map Prod.fst =
      if s ∈ st.map Prod.fst then st.map Prod.fst
      else st.map Prod.fst ++ [s] := by
  induction st with
  | nil => simp [addParse]
  | cons p rest ih =>
    by_cases hp : p.1 = s
    · rw [show addParse (p :: rest) s lvl e = (p.1, dictSet p.2 lvl e) :: rest from by
        rw [addParse, if_pos hp],
        List.map_cons, List.map_cons,
        if_pos (by rw [hp]; exact List.mem_cons_self _ _)]
    · rw [show addParse (p :: rest) s lvl e = (p.1, p.2) :: addParse rest s lvl e from by
        rw [addParse, if_neg hp],
        List.map_cons, List.map_cons, ih]
      by_cases hm : s ∈ rest.map Prod.fst
      · rw [if_pos hm, if_pos (List.mem_cons_of_mem _ hm)]
      · rw [if_neg hm,
          if_neg (by
            intro hx
            rcases List.mem_cons.mp hx with h1 | h2
            · exact hp h1.symm
            · exact hm h2)]
        rfl

theorem firstOccurGo_congr (s1 s2 : List (List Char))
    (h : ∀ x, x ∈ s1 ↔ x ∈ s2) (l : List (List Char)) :
    firstOccurGo s1 l = firstOccurGo s2 l := by
  induction l generalizing s1 s2 with
  | nil => rfl
  | cons x xs ih =>
    rw [firstOccurGo, firstOccurGo]
    by_cases hx : x ∈ s1
    · rw [if_pos hx, if_pos ((h x).mp hx)]
      exact ih s1 s2 h
    · rw [if_neg hx, if_neg (fun hy => hx ((h x).mpr hy))]
      rw [ih (x :: s1) (x :: s2) (by
        intro y
        simp only [List.mem_cons]
        exact or_congr Iff.rfl (h y))]

theorem foldl_procStep_keys :
    ∀ (files : List InputFile) (st : Articles),
      (files.foldl procStep st).map Prod.fst =
        st.map Prod.fst ++
          firstOccurGo (st.map Prod.fst) (processedSlugs files) := by
  intro files
  induction files with
  | nil =>
    intro st
    rw [List.foldl_nil, show processedSlugs [] = [] from rfl, firstOccurGo,
      List.append_nil]
  | cons f rest ih =>
    intro st
    rw [List.foldl_cons, processedSlugs, List.filterMap_cons]
    cases hk : fileKey f with
    | none =>
      rw [show procStep st f = st from by rw [procStep, hk]]
      exact ih st
    | some sl =>
      rw [show procStep st f = addParse st sl.1 sl.2 (mkEntry f sl.2) from by
        rw [procStep, hk], Option.map_some']
      rw [ih (addParse st sl.1 sl.2 (mkEntry f sl.2)), keys_addParse]
      by_cases hm : sl.1 ∈ st.map Prod.fst
      · rw [if_pos hm, firstOccurGo, if_pos hm]
        rfl
      · rw [if_neg hm, firstOccurGo, if_neg hm]
        rw [firstOccurGo_congr (st.map Prod.fst ++ [sl.1]) (sl.1 :: st.map Prod.fst)
          (by intro y; simp [List.mem_append, List.mem_cons, or_comm])]
        rw [List.append_assoc]
        rfl

theorem keys_processFiles (files : List InputFile) :
    (processFiles files).map Prod.fst = firstOccur (processedSlugs files) := by
  rw [processFiles, foldl_procStep_keys]
  rfl

theorem finalizeFrom_length : ∀ (n : Nat) (st : Articles),
    (finalizeFrom n st).length = st.length := by
  intro n st
  induction st generalizing n with
  | nil => rfl
  | cons p rest ih =>
    rw [finalizeFrom, List.length_cons, List.length_cons, ih]

/-- Claim C8: aggregation merges by slug: the number of emitted records
equals the number of distinct slugs encountered (in first-encounter
order), not the number of files; storing a parse under a slug and level
overwrites any earlier parse for the same slug and level (last write
wins) and leaves every other slug/level pair unchanged. -/
theorem claim_C8_aggregation :
    (∀ files, (runMain files).length =
      (firstOccur (processedSlugs files)).length) ∧
    (∀ st s lvl e, getLevelOf (addParse st s lvl e) s lvl = some e) ∧
    (∀ st s lvl e s' lvl', s' ≠ s ∨ lvl' ≠ lvl →
      getLevelOf (addParse st s lvl e) s' lvl' = getLevelOf st s' lvl') := by
  refine ⟨?_, ?_, ?_⟩
  · intro files
    rw [runMain, finalizeFrom_length, ← keys_processFiles, List.length_map]
  · intro st s lvl e
    rw [getLevelOf, getSlug_addParse_same]
    exact getLevel_dictSet_same _ _ _
  · intro st s lvl e s' lvl' hor
    by_cases hs : s' = s
    · subst hs
      have hl : lvl' ≠ lvl := by
        rcases hor with h1 | h2
        · exact absurd rfl h1
        · exact h2
      rw [getLevelOf, getSlug_addParse_same]
      show getLevel (dictSet ((getSlug st s').getD []) lvl e) lvl' =
        getLevelOf st s' lvl'
      rw [getLevel_dictSet_other _ _ _ _ hl, getLevelOf]
      cases hg : getSlug st s' with
      | none => rfl
      | some m => rfl
    · rw [getLevelOf, getSlug_addParse_other st s lvl e s' hs, getLevelOf]

/-- Witness for C8 at concrete data: adding the same slug and level twice
keeps only the later entry, and a different level of the same slug is
untouched. -/
theorem claim_C8_witness :
    getLevelOf (addParse [(("a".toList),
        [(1, ⟨"h1".toList, [], [], [], [], []⟩)])] ("a".toList) 1
        ⟨"h2".toList, [], [], [], [], []⟩) ("a".toList) 1 =
      some ⟨"h2".toList, [], [], [], [], []⟩ ∧
    getLevelOf (addParse [(("a".toList),
        [(1, ⟨"h1".toList, [], [], [], [], []⟩)])] ("a".toList) 3
        ⟨"h2".toList, [], [], [], [], []⟩) ("a".toList) 1 =
      getLevelOf [(("a".toList),
        [(1, ⟨"h1".toList, [], [], [], [], []⟩)])] ("a".toList) 1 :=
  ⟨claim_C8_aggregation.2.1 _ _ _ _,
   claim_C8_aggregation.2.2 _ _ _ _ _ _ (Or.inr (by decide))⟩

theorem finalizeFrom_map_id : ∀ (n : Nat) (st : Articles),
    (finalizeFrom n st).map Record.id = (List.range' n st.length).map formatId := by
  intro n st
  induction st generalizing n with
  | nil => rfl
  | cons p rest ih =>
    rw [finalizeFrom, List.map_cons, List.length_cons, List.range'_succ,
      List.map_cons, ih (n + 1)]
    rfl

theorem finalizeFrom_map_slug : ∀ (n : Nat) (st : Articles),
    (finalizeFrom n st).map Record.slug = st.map Prod.fst := by
  intro n st
  induction st generalizing n with
  | nil => rfl
  | cons p rest ih =>
    rw [finalizeFrom, List.map_cons, List.map_cons, ih (n + 1)]
    rfl

theorem digitChar_toNat {d : Nat} (h : d < 10) : (digitChar d).toNat = 48 + d := by
  rw [digitChar]
  exact char_toNat_ofNat (by left; omega)

theorem charsToNat_append_digit (a : List Char) (c : Char) :
    charsToNat (a ++ [c]) = 10 * charsToNat a + (c.toNat - 48) := by
  rw [charsToNat, List.foldl_append]
  rfl

theorem charsToNat_natDigits (n : Nat) : charsToNat (natDigits n) = n := by
  induction n using Nat.strong_induction_on with
  | _ n ih =>
    by_cases h : n < 10
    · rw [show natDigits n = [digitChar n] from by rw [natDigits, if_pos h]]
      show 10 * 0 + ((digitChar n).toNat - 48) = n
      rw [digitChar_toNat h]
      omega
    · rw [show natDigits n = natDigits (n / 10) ++ [digitChar (n % 10)] from by
        rw [natDigits, if_neg h],
        charsToNat_append_digit, ih (n / 10) (Nat.div_lt_self (by omega) (by omega)),
        digitChar_toNat (Nat.mod_lt _ (by omega))]
      omega

theorem charsToNat_replicate_zero (k : Nat) (s : List Char) :
    charsToNat (List.replicate k '0' ++ s) = charsToNat s := by
  induction k with
  | zero => rw [List.replicate_zero, List.nil_append]
  | succ k ih =>
    rw [List.replicate_succ, List.cons_append]
    show charsToNat (List.replicate k '0' ++ s) = charsToNat s
    exact ih

theorem charsToNat_pad3 (n : Nat) : charsToNat (pad3 n) = n := by
  rw [pad3, charsToNat_replicate_zero, charsToNat_natDigits]

theorem charsToNat_drop_formatId (n : Nat) :
    charsToNat ((formatId n).drop 3) = n := by
  rw [formatId, show ("rec".toList : List Char) = ['r', 'e', 'c'] from rfl]
  rw [show (['r', 'e', 'c'] ++ pad3 n).drop 3 = pad3 n from rfl]
  exact charsToNat_pad3 n

/-- Claim C5: record ids are `"rec"` followed by the zero-padded (width 3)
value of a counter starting at 1, assigned in slug first-encounter order
(one per distinct slug); the output order is that first-encounter order,
and no id is ever reused. -/
theorem claim_C5_record_ids (files : List InputFile) :
    (runMain files).map Record.id =
      (List.range' 1 (runMain files).length).map formatId ∧
    (runMain files).map Record.slug = firstOccur (processedSlugs files) ∧
    ((runMain files).map Record.id).Nodup ∧
    formatId 7 = "rec007".toList := by
  refine ⟨?_, ?_, ?_, ?_⟩
  · rw [runMain, finalizeFrom_map_id, finalizeFrom_length]
  · rw [runMain, finalizeFrom_map_slug, keys_processFiles]
  · rw [runMain, finalizeFrom_map_id]
    apply List.Nodup.of_map (fun l : List Char => charsToNat (l.drop 3))
    rw [List.map_map]
    rw [show ((fun l : List Char => charsToNat (l.drop 3)) ∘ formatId) =
        (id : Nat → Nat) from funext (fun k => charsToNat_drop_formatId k)]
    rw [List.map_id]
    exact List.nodup_range' _ _
  · rw [formatId, pad3, show natDigits 7 = [digitChar 7] from by rw [natDigits]; rfl]
    decide
